import Mathlib

/-!
# Verification of the beads YOLO runner core

Shallow embedding of `src/beads_yolo_runner.py`:

* `select_first_open_leaf_task` / `find_leaf` — the materialized-tree
  backlog walker (lines 15–36 of the source).
* `select_first_open_leaf_task_id` / `walkFuel` — the id-based walker
  (lines 130–157), embedded with an explicit recursion budget (fuel):
  the Python function recurses through an external `children-of` query and
  need not terminate, so the embedding returns `none` when the given
  recursion depth is exhausted; a run that diverges in Python returns
  `none` for every fuel value.
* `run_once` — the task executor (lines 160–231), with the external
  collaborators (backlog store, agent, git) modelled as response oracles
  and the mutating calls recorded in an effect trace.
* `run_loop` — the driving loop (lines 234–251), fuel-bounded because the
  Python loop is unbounded when `max_tasks` is `None`.

Python dict lookups `item.get(k)` are modelled as `Option` fields;
Python truthiness of an optional string (`if leaf:`) is `truthy`.
Python's `sorted`, a stable ascending sort on the key, is modelled by
`List.insertionSort` on the key order, which is stable and ascending.
-/

/-- A backlog tree node, as the JSON dicts consumed by the walkers:
every field of `item.get(...)` may be absent.  `children` defaults to
`[]` exactly as `item.get("children", [])` does. -/
inductive Node : Type where
  | mk : Option String → Option String → Option String → Option Int → List Node → Node

def Node.id : Node → Option String
  | .mk i _ _ _ _ => i

def Node.status : Node → Option String
  | .mk _ s _ _ _ => s

def Node.issue_type : Node → Option String
  | .mk _ _ t _ _ => t

def Node.priority : Node → Option Int
  | .mk _ _ _ p _ => p

def Node.children : Node → List Node
  | .mk _ _ _ _ c => c

/-- Python truthiness of an optional string: `None` and `""` are falsy. -/
def truthy : Option String → Bool
  | none => false
  | some s => !(s == "")

/-- The sort key `item.get("priority", 999)` of both walkers. -/
def itemKey (n : Node) : Int := (Node.priority n).getD 999

/-- The key order used by `sorted(items, key=lambda item: item.get("priority", 999))`. -/
def keyLE (a b : Node) : Prop := itemKey a ≤ itemKey b

instance : DecidableRel keyLE := fun a b => inferInstanceAs (Decidable (itemKey a ≤ itemKey b))

/-- `sorted(items, key=lambda item: item.get("priority", 999))`:
Python's `sorted` is the stable ascending sort on the key, which is what
`insertionSort` on the key order computes. -/
def sorted_items (items : List Node) : List Node :=
  items.insertionSort keyLE

theorem sorted_items_perm (items : List Node) : (sorted_items items).Perm items :=
  List.perm_insertionSort keyLE items

theorem sizeOf_of_perm : ∀ {l₁ l₂ : List Node}, l₁.Perm l₂ → sizeOf l₁ = sizeOf l₂ := by
  intro l₁ l₂ h
  induction h with
  | nil => rfl
  | cons x _ ih => simp only [List.cons.sizeOf_spec, ih]
  | swap x y l => simp only [List.cons.sizeOf_spec]; omega
  | trans _ _ ih₁ ih₂ => omega

theorem sizeOf_sorted_items (items : List Node) :
    sizeOf (sorted_items items) = sizeOf items :=
  sizeOf_of_perm (sorted_items_perm items)

theorem sizeOf_children_lt (n : Node) : sizeOf n.children < sizeOf n := by
  cases n with
  | mk i s t p c => simp only [Node.children, Node.mk.sizeOf_spec]; omega

mutual

/-- `find_leaf(items)` (source lines 19–34): sort the sibling list by
priority, then scan it. -/
def find_leaf (items : List Node) : Option String :=
  scanL (sorted_items items)
termination_by 2 * sizeOf items + 1
decreasing_by
  simp only [sizeOf_sorted_items]; omega

/-- The loop body of `find_leaf`, applied to the already-sorted sibling
list: skip non-`open` items; recurse into an `epic` with nonempty
`children` and return a truthy result at once; on a `task`, return its
`id` (whatever it is); anything else is skipped. -/
def scanL : List Node → Option String
  | [] => none
  | item :: rest =>
    if item.status = some "open" then
      if item.issue_type = some "epic" then
        if item.children.isEmpty then scanL rest
        else
          match find_leaf item.children with
          | leaf => if truthy leaf then leaf else scanL rest
      else if item.issue_type = some "task" then item.id
      else scanL rest
    else scanL rest
termination_by l => 2 * sizeOf l
decreasing_by
  all_goals
    first
      | (simp only [List.cons.sizeOf_spec]; omega)
      | (have h := sizeOf_children_lt item
         simp only [List.cons.sizeOf_spec]; omega)

end

/-- `select_first_open_leaf_task(tree)` (source line 15). -/
def select_first_open_leaf_task (tree : List Node) : Option String :=
  find_leaf tree

/-- All nodes of a forest: the roots together with all their descendants. -/
def subnodesL : List Node → List Node
  | [] => []
  | n :: r => n :: (subnodesL n.children ++ subnodesL r)
termination_by l => sizeOf l
decreasing_by
  all_goals
    first
      | (simp only [List.cons.sizeOf_spec]; omega)
      | (have h := sizeOf_children_lt item
         simp only [List.cons.sizeOf_spec]; omega)

theorem mem_subnodesL : ∀ {l : List Node} {m : Node},
    m ∈ subnodesL l ↔ ∃ n ∈ l, m = n ∨ m ∈ subnodesL n.children := by
  intro l
  induction l with
  | nil => simp [subnodesL]
  | cons n r ih =>
    intro m
    simp only [subnodesL, List.mem_cons, List.mem_append, ih]
    constructor
    · rintro (h | h | ⟨x, hx, hx2⟩)
      · exact ⟨n, Or.inl rfl, Or.inl h⟩
      · exact ⟨n, Or.inl rfl, Or.inr h⟩
      · exact ⟨x, Or.inr hx, hx2⟩
    · rintro ⟨x, hx | hx, hm⟩
      · subst hx
        rcases hm with hm | hm
        · exact Or.inl hm
        · exact Or.inr (Or.inl hm)
      · exact Or.inr (Or.inr ⟨x, hx, hm⟩)

theorem subnodesL_mono {l₁ l₂ : List Node} (h : ∀ x ∈ l₁, x ∈ l₂) :
    ∀ {m : Node}, m ∈ subnodesL l₁ → m ∈ subnodesL l₂ := by
  intro m hm
  rw [mem_subnodesL] at hm ⊢
  obtain ⟨n, hn, hmn⟩ := hm
  exact ⟨n, h n hn, hmn⟩

theorem self_mem_subnodesL {l : List Node} {n : Node} (h : n ∈ l) : n ∈ subnodesL l :=
  mem_subnodesL.mpr ⟨n, h, Or.inl rfl⟩

theorem children_subnodesL {l : List Node} {n m : Node} (hn : n ∈ l)
    (hm : m ∈ subnodesL n.children) : m ∈ subnodesL l :=
  mem_subnodesL.mpr ⟨n, hn, Or.inr hm⟩

/-- The result of the tree walker names an `open` `task` node of the tree. -/
def FoundOpenTask (l : List Node) (i : String) : Prop :=
  ∃ n ∈ subnodesL l, n.id = some i ∧ n.status = some "open" ∧ n.issue_type = some "task"

theorem foundOpenTask_cons {item : Node} {rest : List Node} {i : String}
    (h : FoundOpenTask rest i) : FoundOpenTask (item :: rest) i := by
  obtain ⟨n, hn, hrest⟩ := h
  exact ⟨n, subnodesL_mono (fun x hx => List.mem_cons_of_mem _ hx) hn, hrest⟩

theorem foundOpenTask_children {item : Node} {rest : List Node} {i : String}
    (h : FoundOpenTask item.children i) : FoundOpenTask (item :: rest) i := by
  obtain ⟨n, hn, hrest⟩ := h
  exact ⟨n, children_subnodesL (List.mem_cons_self item rest) hn, hrest⟩

theorem foundOpenTask_sorted {l : List Node} {i : String}
    (h : FoundOpenTask (sorted_items l) i) : FoundOpenTask l i := by
  obtain ⟨n, hn, hrest⟩ := h
  exact ⟨n, subnodesL_mono (fun x hx => (sorted_items_perm l).mem_iff.mp hx) hn, hrest⟩

theorem scanL_sound : ∀ l, ∀ i, scanL l = some i → FoundOpenTask l i := by
  refine scanL.induct
    (fun l => ∀ i, find_leaf l = some i → FoundOpenTask l i)
    (fun l => ∀ i, scanL l = some i → FoundOpenTask l i)
    ?_ ?_ ?_ ?_ ?_ ?_ ?_ ?_
  · intro items ih i hf
    rw [find_leaf] at hf
    exact foundOpenTask_sorted (ih i hf)
  · intro i h
    simp [scanL] at h
  · intro item rest hst hty hemp ih i h
    rw [scanL, if_pos hst, if_pos hty, if_pos hemp] at h
    exact foundOpenTask_cons (ih i h)
  · intro item rest hst hty hemp leaf htr ih i h
    rw [scanL, if_pos hst, if_pos hty, if_neg hemp] at h
    rw [if_pos htr] at h
    exact foundOpenTask_children (ih i h)
  · intro item rest hst hty hemp leaf htr ih ihr i h
    rw [scanL, if_pos hst, if_pos hty, if_neg hemp] at h
    rw [if_neg htr] at h
    exact foundOpenTask_cons (ihr i h)
  · intro item rest hst hty htask i h
    rw [scanL, if_pos hst, if_neg hty, if_pos htask] at h
    exact ⟨item, self_mem_subnodesL (List.mem_cons_self item rest), h, hst, htask⟩
  · intro item rest hst hty htask ih i h
    rw [scanL, if_pos hst, if_neg hty, if_neg htask] at h
    exact foundOpenTask_cons (ih i h)
  · intro item rest hst ih i h
    rw [scanL, if_neg hst] at h
    exact foundOpenTask_cons (ih i h)

theorem find_leaf_sound {l : List Node} {i : String} (h : find_leaf l = some i) :
    FoundOpenTask l i := by
  rw [find_leaf] at h
  exact foundOpenTask_sorted (scanL_sound _ i h)

/-- `if not issue_id: continue` (source line 147): the id survives only
when it is truthy. -/
def truthyOpt : Option String → Option String
  | none => none
  | some s => if s = "" then none else some s

/-- The loop body of `walk` in `select_first_open_leaf_task_id` (source
lines 142–155), applied to the already-sorted sibling list; `walk` is the
recursive call one level down.  Skip non-`open` items and items without a
truthy id; return a `task`'s id at once; recurse into an `epic` and
return a truthy result at once.  The outer `none` propagates an exhausted
recursion budget. -/
def scanId (walk : String → Option (Option String)) : List Node → Option (Option String)
  | [] => some none
  | item :: rest =>
    if item.status = some "open" then
      match truthyOpt item.id with
      | none => scanId walk rest
      | some iid =>
        if item.issue_type = some "task" then some (some iid)
        else if item.issue_type = some "epic" then
          match walk iid with
          | none => none
          | some leaf => if truthy leaf then some leaf else scanId walk rest
        else scanId walk rest
    else scanId walk rest

/-- `walk(parent_id)` of `select_first_open_leaf_task_id` (source lines
141–155), with an explicit recursion budget: each nested `walk` call
consumes one unit, and the result `none` means the budget was exhausted —
the Python recursion at that depth has not returned.  `cOf pid` is the
backlog store's answer to `bd ready --parent pid --json`. -/
def walkFuel (cOf : String → List Node) : Nat → String → Option (Option String)
  | 0, _ => none
  | fuel + 1, pid => scanId (walkFuel cOf fuel) (sorted_items (cOf pid))

/-- `select_first_open_leaf_task_id(root_id, command_runner)` (source
line 130): run `walk` on the root with the given recursion budget. -/
def select_first_open_leaf_task_id (rootId : String) (cOf : String → List Node)
    (fuel : Nat) : Option (Option String) :=
  walkFuel cOf fuel rootId

theorem truthyOpt_some {o : Option String} {s : String} (h : truthyOpt o = some s) :
    o = some s ∧ s ≠ "" := by
  cases o with
  | none => simp [truthyOpt] at h
  | some t =>
    by_cases ht : t = ""
    · simp [truthyOpt, ht] at h
    · simp [truthyOpt, ht] at h
      subst h
      exact ⟨rfl, ht⟩

theorem truthy_iff {o : Option String} :
    truthy o = true ↔ ∃ s, o = some s ∧ s ≠ "" := by
  cases o with
  | none => simp [truthy]
  | some s => simp [truthy]

theorem truthyOpt_eq_some {s : String} (h : s ≠ "") : truthyOpt (some s) = some s := by
  simp [truthyOpt, h]

section StepLemmas

variable {walk : String → Option (Option String)} {item : Node} {rest : List Node}

theorem scanL_cons_notOpen {item : Node} {rest : List Node}
    (hst : ¬item.status = some "open") :
    scanL (item :: rest) = scanL rest := by
  rw [scanL, if_neg hst]

theorem scanL_cons_epicEmpty {item : Node} {rest : List Node}
    (hst : item.status = some "open")
    (hepic : item.issue_type = some "epic") (hemp : item.children.isEmpty) :
    scanL (item :: rest) = scanL rest := by
  rw [scanL, if_pos hst, if_pos hepic, if_pos hemp]

theorem scanL_cons_epic {item : Node} {rest : List Node}
    (hst : item.status = some "open")
    (hepic : item.issue_type = some "epic") (hemp : ¬item.children.isEmpty) :
    scanL (item :: rest)
      = if truthy (find_leaf item.children) then find_leaf item.children
        else scanL rest := by
  rw [scanL, if_pos hst, if_pos hepic, if_neg hemp]

theorem scanL_cons_task {item : Node} {rest : List Node}
    (hst : item.status = some "open")
    (hepic : ¬item.issue_type = some "epic") (htask : item.issue_type = some "task") :
    scanL (item :: rest) = item.id := by
  rw [scanL, if_pos hst, if_neg hepic, if_pos htask]

theorem scanL_cons_other {item : Node} {rest : List Node}
    (hst : item.status = some "open")
    (hepic : ¬item.issue_type = some "epic") (htask : ¬item.issue_type = some "task") :
    scanL (item :: rest) = scanL rest := by
  rw [scanL, if_pos hst, if_neg hepic, if_neg htask]

theorem scanId_cons_notOpen (hst : ¬item.status = some "open") :
    scanId walk (item :: rest) = scanId walk rest := by
  rw [scanId, if_neg hst]

theorem scanId_cons_noId (hst : item.status = some "open")
    (hts : truthyOpt item.id = none) :
    scanId walk (item :: rest) = scanId walk rest := by
  rw [scanId, if_pos hst, hts]

theorem scanId_cons_task {iid : String} (hst : item.status = some "open")
    (hts : truthyOpt item.id = some iid) (htask : item.issue_type = some "task") :
    scanId walk (item :: rest) = some (some iid) := by
  rw [scanId, if_pos hst, hts]
  simp only [htask, reduceIte]

theorem scanId_cons_epic {iid : String} (hst : item.status = some "open")
    (hts : truthyOpt item.id = some iid) (htask : ¬item.issue_type = some "task")
    (hepic : item.issue_type = some "epic") :
    scanId walk (item :: rest)
      = match walk iid with
        | none => none
        | some leaf => if truthy leaf then some leaf else scanId walk rest := by
  rw [scanId, if_pos hst, hts]
  simp only [if_neg htask, if_pos hepic]

theorem scanId_cons_other {iid : String} (hst : item.status = some "open")
    (hts : truthyOpt item.id = some iid) (htask : ¬item.issue_type = some "task")
    (hepic : ¬item.issue_type = some "epic") :
    scanId walk (item :: rest) = scanId walk rest := by
  rw [scanId, if_pos hst, hts]
  simp only [if_neg htask, if_neg hepic]

end StepLemmas

/-- The result of the id-based walker names an `open` `task` item of some
children query answered by the backlog store. -/
def FoundOpenTaskId (cOf : String → List Node) (i : String) : Prop :=
  ∃ pid, ∃ n ∈ cOf pid,
    n.id = some i ∧ i ≠ "" ∧ n.status = some "open" ∧ n.issue_type = some "task"

theorem scanId_sound {cOf : String → List Node} {walk : String → Option (Option String)}
    (hw : ∀ iid i, walk iid = some (some i) → FoundOpenTaskId cOf i) :
    ∀ items : List Node, ∀ i, scanId walk items = some (some i) →
      (∃ n ∈ items, n.id = some i ∧ i ≠ "" ∧ n.status = some "open" ∧
          n.issue_type = some "task")
        ∨ FoundOpenTaskId cOf i := by
  intro items
  induction items with
  | nil =>
    intro i h
    rw [scanId] at h
    simp at h
  | cons item rest ih =>
    intro i h
    have lift : (∃ n ∈ rest, n.id = some i ∧ i ≠ "" ∧ n.status = some "open" ∧
          n.issue_type = some "task") ∨ FoundOpenTaskId cOf i →
        (∃ n ∈ item :: rest, n.id = some i ∧ i ≠ "" ∧ n.status = some "open" ∧
          n.issue_type = some "task") ∨ FoundOpenTaskId cOf i := by
      rintro (⟨n, hn, hx⟩ | hf)
      · exact Or.inl ⟨n, List.mem_cons_of_mem _ hn, hx⟩
      · exact Or.inr hf
    by_cases hst : item.status = some "open"
    case neg =>
      rw [scanId_cons_notOpen hst] at h
      exact lift (ih i h)
    cases hts : truthyOpt item.id with
    | none =>
      rw [scanId_cons_noId hst hts] at h
      exact lift (ih i h)
    | some iid =>
      obtain ⟨hid, hne⟩ := truthyOpt_some hts
      by_cases htask : item.issue_type = some "task"
      · rw [scanId_cons_task hst hts htask] at h
        obtain ⟨rfl⟩ : iid = i := by simpa using h
        exact Or.inl ⟨item, List.mem_cons_self item rest, hid, hne, hst, htask⟩
      · by_cases hepic : item.issue_type = some "epic"
        · rw [scanId_cons_epic hst hts htask hepic] at h
          cases hwk : walk iid with
          | none => rw [hwk] at h; simp at h
          | some leaf =>
            rw [hwk] at h
            replace h : (if truthy leaf then some leaf else scanId walk rest)
                = some (some i) := h
            by_cases htr : truthy leaf
            · rw [if_pos htr] at h
              obtain ⟨rfl⟩ : leaf = some i := by simpa using h
              exact Or.inr (hw iid i hwk)
            · rw [if_neg htr] at h
              exact lift (ih i h)
        · rw [scanId_cons_other hst hts htask hepic] at h
          exact lift (ih i h)

theorem walkFuel_sound : ∀ {fuel : Nat} {cOf : String → List Node} {pid : String}
    {i : String}, walkFuel cOf fuel pid = some (some i) → FoundOpenTaskId cOf i := by
  intro fuel
  induction fuel with
  | zero => intro cOf pid i h; simp [walkFuel] at h
  | succ f ih =>
    intro cOf pid i h
    rw [walkFuel] at h
    rcases scanId_sound (fun iid j hj => ih hj) (sorted_items (cOf pid)) i h with
      ⟨n, hn, hx⟩ | hf
    · exact ⟨pid, n, (sorted_items_perm (cOf pid)).mem_iff.mp hn, hx⟩
    · exact hf

/-- Depth of a forest: the length of the longest chain of nested children. -/
def ldepth : List Node → Nat
  | [] => 0
  | n :: r => max (1 + ldepth n.children) (ldepth r)
termination_by l => sizeOf l
decreasing_by
  all_goals
    first
      | (simp only [List.cons.sizeOf_spec]; omega)
      | (have h := sizeOf_children_lt item
         simp only [List.cons.sizeOf_spec]; omega)

theorem ldepth_bound {l : List Node} {n : Node} (h : n ∈ l) :
    1 + ldepth n.children ≤ ldepth l := by
  induction l with
  | nil => cases h
  | cons m r ih =>
    rw [ldepth]
    rcases List.mem_cons.mp h with rfl | h
    · exact le_max_left _ _
    · exact le_trans (ih h) (le_max_right _ _)

/-- The id-based walker, run at `rootId`, returns no result at any
recursion depth: the Python recursion never returns. -/
def divergesAt (cOf : String → List Node) (rootId : String) : Prop :=
  ∀ fuel, walkFuel cOf fuel rootId = none

/-- A children-of query with a cycle: every parent has the single open
epic `"a"` as its child, including `"a"` itself. -/
def cyclicQuery : String → List Node :=
  fun _ => [Node.mk (some "a") (some "open") (some "epic") none []]

theorem cyclicQuery_walk_none : ∀ (fuel : Nat) (pid : String),
    walkFuel cyclicQuery fuel pid = none := by
  intro fuel
  induction fuel with
  | zero => intro pid; rfl
  | succ f ih =>
    intro pid
    show scanId (walkFuel cyclicQuery f) (sorted_items (cyclicQuery pid)) = none
    rw [show sorted_items (cyclicQuery pid)
        = [Node.mk (some "a") (some "open") (some "epic") none []] from rfl]
    rw [scanId]
    simp [Node.status, Node.id, Node.issue_type, truthyOpt, ih "a"]

/-- `cOf` presents the forest `l`: querying the id of any node of the
forest returns that node's children list. -/
def presents (cOf : String → List Node) (l : List Node) : Prop :=
  ∀ n ∈ subnodesL l, ∀ s, n.id = some s → s ≠ "" → cOf s = n.children

theorem presents_children {cOf : String → List Node} {l : List Node} {n : Node}
    (hp : presents cOf l) (hn : n ∈ l) : presents cOf n.children :=
  fun m hm => hp m (children_subnodesL hn hm)

/-- Every node of the forest carries a truthy id. -/
def allIdsTruthy (l : List Node) : Prop :=
  ∀ n ∈ subnodesL l, truthy n.id = true

theorem allIdsTruthy_children {l : List Node} {n : Node}
    (ha : allIdsTruthy l) (hn : n ∈ l) : allIdsTruthy n.children :=
  fun m hm => ha m (children_subnodesL hn hm)

theorem find_leaf_nil : find_leaf [] = none := by
  rw [find_leaf]
  have h : sorted_items ([] : List Node) = [] := rfl
  rw [h, scanL]

theorem scanId_total {walk : String → Option (Option String)} :
    ∀ items : List Node,
      (∀ item ∈ items, item.issue_type = some "epic" → ∀ iid, item.id = some iid →
        iid ≠ "" → ∃ r, walk iid = some r) →
      ∃ r, scanId walk items = some r := by
  intro items
  induction items with
  | nil => exact fun _ => ⟨none, by rw [scanId]⟩
  | cons item rest ih =>
    intro hrec
    have ihr := ih fun x hx h1 iid h2 h3 => hrec x (List.mem_cons_of_mem _ hx) h1 iid h2 h3
    by_cases hst : item.status = some "open"
    case neg =>
      obtain ⟨r, hr⟩ := ihr
      exact ⟨r, (scanId_cons_notOpen hst).trans hr⟩
    cases hts : truthyOpt item.id with
    | none =>
      obtain ⟨r, hr⟩ := ihr
      exact ⟨r, (scanId_cons_noId hst hts).trans hr⟩
    | some iid =>
      obtain ⟨hid, hne⟩ := truthyOpt_some hts
      by_cases htask : item.issue_type = some "task"
      · exact ⟨some iid, scanId_cons_task hst hts htask⟩
      · by_cases hepic : item.issue_type = some "epic"
        · obtain ⟨w, hw⟩ := hrec item (List.mem_cons_self _ _) hepic iid hid hne
          rw [scanId_cons_epic hst hts htask hepic, hw]
          show ∃ r, (if truthy w then some w else scanId walk rest) = some r
          by_cases htr : truthy w
          · exact ⟨w, by rw [if_pos htr]⟩
          · obtain ⟨r, hr⟩ := ihr
            exact ⟨r, by rw [if_neg htr]; exact hr⟩
        · obtain ⟨r, hr⟩ := ihr
          exact ⟨r, (scanId_cons_other hst hts htask hepic).trans hr⟩

theorem walkFuel_total : ∀ (fuel : Nat) (l : List Node) (cOf : String → List Node)
    (pid : String), cOf pid = l → presents cOf l → ldepth l < fuel →
    ∃ r, walkFuel cOf fuel pid = some r := by
  intro fuel
  induction fuel with
  | zero => intro l cOf pid _ _ h; omega
  | succ f ih =>
    intro l cOf pid hroot hp hd
    rw [walkFuel, hroot]
    apply scanId_total
    intro item hitem hepic iid hid hne
    have hmem : item ∈ l := (sorted_items_perm l).mem_iff.mp hitem
    apply ih item.children cOf iid (hp item (self_mem_subnodesL hmem) iid hid hne)
      (presents_children hp hmem)
    have hb := ldepth_bound hmem
    omega

theorem scanId_eq_scanL {walk : String → Option (Option String)} :
    ∀ items : List Node,
      (∀ item ∈ items, truthy item.id = true) →
      (∀ item ∈ items, item.issue_type = some "epic" → ∀ iid, item.id = some iid →
        iid ≠ "" → walk iid = some (find_leaf item.children)) →
      scanId walk items = some (scanL items) := by
  intro items
  induction items with
  | nil => intro _ _; rw [scanId, scanL]
  | cons item rest ih =>
    intro hids hrec
    have ihr := ih (fun x hx => hids x (List.mem_cons_of_mem _ hx))
      (fun x hx h1 iid h2 h3 => hrec x (List.mem_cons_of_mem _ hx) h1 iid h2 h3)
    by_cases hst : item.status = some "open"
    case neg => rw [scanId_cons_notOpen hst, scanL_cons_notOpen hst]; exact ihr
    obtain ⟨iid, hid, hne⟩ := truthy_iff.mp (hids item (List.mem_cons_self _ _))
    have hts : truthyOpt item.id = some iid := by rw [hid]; exact truthyOpt_eq_some hne
    by_cases htask : item.issue_type = some "task"
    · have hepic : ¬item.issue_type = some "epic" := by rw [htask]; simp
      rw [scanId_cons_task hst hts htask, scanL_cons_task hst hepic htask, hid]
    · by_cases hepic : item.issue_type = some "epic"
      · have hwalk := hrec item (List.mem_cons_self _ _) hepic iid hid hne
        rw [scanId_cons_epic hst hts htask hepic, hwalk]
        show (if truthy (find_leaf item.children) then some (find_leaf item.children)
            else scanId walk rest) = some (scanL (item :: rest))
        by_cases hemp : item.children.isEmpty
        · rw [scanL_cons_epicEmpty hst hepic hemp]
          have hch : item.children = [] := List.isEmpty_iff.mp hemp
          rw [hch, find_leaf_nil]
          rw [show truthy none = false from rfl]
          simpa using ihr
        · rw [scanL_cons_epic hst hepic hemp]
          by_cases htr : truthy (find_leaf item.children)
          · rw [if_pos htr, if_pos htr]
          · rw [if_neg htr, if_neg htr]
            exact ihr
      · rw [scanId_cons_other hst hts htask hepic, scanL_cons_other hst hepic htask]
        exact ihr

theorem walkFuel_eq_find_leaf : ∀ (fuel : Nat) (l : List Node) (cOf : String → List Node)
    (pid : String), cOf pid = l → presents cOf l → allIdsTruthy l → ldepth l < fuel →
    walkFuel cOf fuel pid = some (find_leaf l) := by
  intro fuel
  induction fuel with
  | zero => intro l cOf pid _ _ _ h; omega
  | succ f ih =>
    intro l cOf pid hroot hp ha hd
    rw [walkFuel, hroot]
    have hfl : find_leaf l = scanL (sorted_items l) := by rw [find_leaf]
    rw [hfl]
    apply scanId_eq_scanL
    · intro item hitem
      exact ha item (self_mem_subnodesL ((sorted_items_perm l).mem_iff.mp hitem))
    · intro item hitem hepic iid hid hne
      have hmem : item ∈ l := (sorted_items_perm l).mem_iff.mp hitem
      apply ih item.children cOf iid (hp item (self_mem_subnodesL hmem) iid hid hne)
        (presents_children hp hmem) (allIdsTruthy_children ha hmem)
      have hb := ldepth_bound hmem
      omega

/-- The task record fetched by `bd show <id> --json` (source line 174),
with the `""` defaults of `task_data.get(...)` already applied. -/
structure TaskRec where
  title : String
  description : String
  acceptance_criteria : String
deriving DecidableEq

/-- One audit record written by `log_completion` (source lines 111–127). -/
structure LogEntry where
  timestamp : String
  issue_id : String
  title : String
  status : String
  commit_sha : String
deriving DecidableEq

/-- The mutating calls `run_once` makes against the external
collaborators, in execution order.  Read-only queries (`bd ready`,
`bd show`, `git status`, `git rev-parse`) are answered by the `Env`
oracle and are not effects. -/
inductive Effect : Type where
  | storeUpdate (id status : String)
  | agentRun (id : String)
  | gitAdd
  | gitCommit (message : String)
  | logAppend (entry : LogEntry)
  | storeClose (id : String)
  | storeSync
deriving DecidableEq

/-- Responses of the external collaborators during one `run_once` call:
`childrenOf` answers `bd ready --parent`, `task` answers the first
`bd show`, `timestamp` is the `date` output used by `log_completion`,
`porcelain` is the `git status --porcelain` output after the agent ran
and `git add .` staged everything, `head0` is the `git rev-parse HEAD`
answer while no commit has been made, `headAfterCommit` the answer after
the commit, and `statusAfterClose` the status field of the re-fetched
task after `bd close`. -/
structure Env where
  childrenOf : String → List Node
  task : String → TaskRec
  timestamp : String
  porcelain : String
  head0 : String
  headAfterCommit : String
  statusAfterClose : String → String

/-- Python `str.strip()`: drop leading and trailing whitespace. -/
def pyStrip (s : String) : String :=
  String.mk (((s.data.dropWhile Char.isWhitespace).reverse.dropWhile
    Char.isWhitespace).reverse)

/-- Python `str.lower()`: lowercase every character. -/
def pyLower (s : String) : String :=
  String.mk (s.data.map Char.toLower)

/-- `run_once(repo_root, ...)` (source lines 160–231).  Returns the
outcome string and the trace of mutating calls; `none` when the
selection recursion exhausts `selFuel` (the Python call would not have
returned).  `rootId` defaults to `"algi-8bt"` in the source; it is
explicit here. -/
def run_once (env : Env) (selFuel : Nat) (rootId : String) (dry_run : Bool) :
    Option (String × List Effect) :=
  match walkFuel env.childrenOf selFuel rootId with
  | none => none
  | some leafOpt =>
    match truthyOpt leafOpt with
    | none => some ("no_tasks", [])
    | some leaf_id =>
      let t := env.task leaf_id
      if dry_run then some ("dry_run", [])
      else
        let effs := [Effect.storeUpdate leaf_id "in_progress",
                     Effect.agentRun leaf_id, Effect.gitAdd]
        if pyStrip env.porcelain = "" then
          let commit_sha := pyStrip env.head0
          let entry := LogEntry.mk env.timestamp leaf_id t.title "blocked" commit_sha
          some ("blocked",
            effs ++ [Effect.logAppend entry, Effect.storeUpdate leaf_id "blocked"])
        else
          let commit_message :=
            if t.title ≠ "" then "feat: " ++ pyLower t.title
            else "feat: complete bead task"
          let commit_sha := pyStrip env.headAfterCommit
          let entry := LogEntry.mk env.timestamp leaf_id t.title "completed" commit_sha
          let effs2 := effs ++ [Effect.gitCommit commit_message,
            Effect.logAppend entry, Effect.storeClose leaf_id]
          if env.statusAfterClose leaf_id ≠ "closed" then
            let entry2 := LogEntry.mk env.timestamp leaf_id t.title "blocked" commit_sha
            some ("blocked",
              effs2 ++ [Effect.logAppend entry2, Effect.storeUpdate leaf_id "blocked"])
          else
            some ("completed", effs2 ++ [Effect.storeSync])

/-- `max_tasks is not None and completed >= max_tasks` (source line 237). -/
def capReached (maxTasks : Option Int) (completed : Int) : Bool :=
  match maxTasks with
  | some n => decide (n ≤ completed)
  | none => false

/-- The `while True` loop of `run_loop` (source lines 236–250), driven by
an abstract executor (`run_once_runner` is a parameter in the source):
`exec k` is the result of the `k`-th executor call, together with its
effect trace; `none` aborts (the executor did not return).  The loop is
fuel-bounded because with `max_tasks = None` it need not terminate;
`none` is also returned when the iteration budget runs out.  Returns the
final `completed` count, the number of executor calls made, and the
accumulated effects. -/
def run_loop_aux (maxTasks : Option Int) (exec : Nat → Option (String × List Effect)) :
    Nat → Nat → Int → List Effect → Option (Int × Nat × List Effect)
  | 0, _, _, _ => none
  | fuel + 1, k, completed, effs =>
    if capReached maxTasks completed then some (completed, k, effs)
    else
      match exec k with
      | none => none
      | some (result, newEffs) =>
        let effs2 := effs ++ newEffs
        if result = "no_tasks" then some (completed, k + 1, effs2)
        else
          let completed2 := if result = "completed" then completed + 1 else completed
          if result = "dry_run" then some (completed2, k + 1, effs2)
          else run_loop_aux maxTasks exec fuel (k + 1) completed2 effs2

/-- `run_loop(repo_root, run_once_runner, max_tasks, root_id, dry_run)`
(source line 234), from the initial state: zero completed, zero calls. -/
def run_loop (maxTasks : Option Int) (exec : Nat → Option (String × List Effect))
    (fuel : Nat) : Option (Int × Nat × List Effect) :=
  run_loop_aux maxTasks exec fuel 0 0 []

/-- `run_loop` with the real executor plugged in (the source's default
`run_once_runner=run_once`): the external world may answer differently on
every iteration, so iteration `k` is answered by the oracle `envs k`. -/
def run_loop_runner (envs : Nat → Env) (selFuel : Nat) (rootId : String)
    (maxTasks : Option Int) (dry_run : Bool) (fuel : Nat) :
    Option (Int × Nat × List Effect) :=
  run_loop maxTasks (fun k => run_once (envs k) selFuel rootId dry_run) fuel

/-- The audit records appended during a trace, in order. -/
def logEntries (effs : List Effect) : List LogEntry :=
  effs.filterMap fun e =>
    match e with
    | Effect.logAppend entry => some entry
    | _ => none

/-- The commit messages of the commits created during a trace, in order. -/
def commits (effs : List Effect) : List String :=
  effs.filterMap fun e =>
    match e with
    | Effect.gitCommit message => some message
    | _ => none

theorem run_once_no_changes {env : Env} {selFuel : Nat} {rootId : String}
    {leaf : Option String} {leaf_id : String}
    (hsel : walkFuel env.childrenOf selFuel rootId = some leaf)
    (hleaf : truthyOpt leaf = some leaf_id)
    (hnoch : pyStrip env.porcelain = "") :
    run_once env selFuel rootId false
      = some ("blocked",
          [Effect.storeUpdate leaf_id "in_progress", Effect.agentRun leaf_id,
           Effect.gitAdd,
           Effect.logAppend ⟨env.timestamp, leaf_id, (env.task leaf_id).title,
             "blocked", pyStrip env.head0⟩,
           Effect.storeUpdate leaf_id "blocked"]) := by
  rw [run_once, hsel]
  simp only [hleaf, Bool.false_eq_true, if_false, hnoch, reduceIte]
  simp

theorem run_once_close_diverged {env : Env} {selFuel : Nat} {rootId : String}
    {leaf : Option String} {leaf_id : String}
    (hsel : walkFuel env.childrenOf selFuel rootId = some leaf)
    (hleaf : truthyOpt leaf = some leaf_id)
    (hch : ¬pyStrip env.porcelain = "")
    (hncl : ¬env.statusAfterClose leaf_id = "closed") :
    run_once env selFuel rootId false
      = some ("blocked",
          [Effect.storeUpdate leaf_id "in_progress", Effect.agentRun leaf_id,
           Effect.gitAdd,
           Effect.gitCommit (if (env.task leaf_id).title ≠ ""
             then "feat: " ++ pyLower (env.task leaf_id).title
             else "feat: complete bead task"),
           Effect.logAppend ⟨env.timestamp, leaf_id, (env.task leaf_id).title,
             "completed", pyStrip env.headAfterCommit⟩,
           Effect.storeClose leaf_id,
           Effect.logAppend ⟨env.timestamp, leaf_id, (env.task leaf_id).title,
             "blocked", pyStrip env.headAfterCommit⟩,
           Effect.storeUpdate leaf_id "blocked"]) := by
  rw [run_once, hsel]
  simp only [hleaf, Bool.false_eq_true, if_false, if_neg hch, if_pos hncl]
  simp

theorem run_once_dry (env : Env) (selFuel : Nat) (rootId : String) :
    run_once env selFuel rootId true = none
    ∨ run_once env selFuel rootId true = some ("no_tasks", [])
    ∨ run_once env selFuel rootId true = some ("dry_run", []) := by
  rcases hw : walkFuel env.childrenOf selFuel rootId with _ | leafOpt
  · exact Or.inl (by rw [run_once, hw])
  · rcases ht : truthyOpt leafOpt with _ | leaf_id
    · refine Or.inr (Or.inl ?_)
      rw [run_once, hw]
      simp [ht]
    · refine Or.inr (Or.inr ?_)
      rw [run_once, hw]
      simp [ht]

/-- The `k`-th executor call returned the outcome `"completed"`. -/
def isCompletedCall (exec : Nat → Option (String × List Effect)) (k : Nat) : Bool :=
  match exec k with
  | some (r, _) => r == "completed"
  | none => false

section LoopStep

variable {maxTasks : Option Int} {exec : Nat → Option (String × List Effect)}
variable {fuel k : Nat} {completed : Int} {effs : List Effect}

theorem run_loop_aux_stop (hcap : capReached maxTasks completed = true) :
    run_loop_aux maxTasks exec (fuel + 1) k completed effs
      = some (completed, k, effs) := by
  rw [run_loop_aux, if_pos hcap]

theorem run_loop_aux_abort (hcap : capReached maxTasks completed = false)
    (he : exec k = none) :
    run_loop_aux maxTasks exec (fuel + 1) k completed effs = none := by
  rw [run_loop_aux, if_neg (by rw [hcap]; exact Bool.false_ne_true), he]

theorem run_loop_aux_step {result : String} {newEffs : List Effect}
    (hcap : capReached maxTasks completed = false)
    (he : exec k = some (result, newEffs)) :
    run_loop_aux maxTasks exec (fuel + 1) k completed effs
      = if result = "no_tasks" then some (completed, k + 1, effs ++ newEffs)
        else
          if result = "dry_run" then
            some ((if result = "completed" then completed + 1 else completed),
              k + 1, effs ++ newEffs)
          else
            run_loop_aux maxTasks exec fuel (k + 1)
              (if result = "completed" then completed + 1 else completed)
              (effs ++ newEffs) := by
  rw [run_loop_aux, if_neg (by rw [hcap]; exact Bool.false_ne_true), he]

end LoopStep

theorem run_loop_aux_count {maxTasks : Option Int}
    {exec : Nat → Option (String × List Effect)} :
    ∀ (fuel k : Nat) (completed : Int) (effs : List Effect) (c : Int) (calls : Nat)
      (effs2 : List Effect),
      run_loop_aux maxTasks exec fuel k completed effs = some (c, calls, effs2) →
      k ≤ calls
      ∧ c = completed + ((List.range' k (calls - k)).countP (isCompletedCall exec) : Int)
      ∧ ∀ N, maxTasks = some N → c ≤ max N completed := by
  intro fuel
  induction fuel with
  | zero =>
    intro k completed effs c calls effs2 h
    rw [run_loop_aux] at h
    cases h
  | succ f ih =>
    intro k completed effs c calls effs2 h
    by_cases hcap : capReached maxTasks completed = true
    · rw [run_loop_aux_stop hcap] at h
      obtain ⟨rfl, rfl, rfl⟩ : completed = c ∧ k = calls ∧ effs = effs2 := by
        simpa [eq_comm] using h
      refine ⟨le_refl _, by simp, fun N hN => le_max_right _ _⟩
    · rw [Bool.not_eq_true] at hcap
      cases he : exec k with
      | none => rw [run_loop_aux_abort hcap he] at h; cases h
      | some p =>
        obtain ⟨result, newEffs⟩ := p
        rw [run_loop_aux_step hcap he] at h
        have hcall : isCompletedCall exec k = (result == "completed") := by
          rw [isCompletedCall, he]
        by_cases hno : result = "no_tasks"
        · rw [if_pos hno] at h
          obtain ⟨rfl, rfl, rfl⟩ : completed = c ∧ k + 1 = calls ∧ effs ++ newEffs = effs2 := by
            simpa [eq_comm] using h
          have hnc : isCompletedCall exec k = false := by
            rw [hcall, hno]; rfl
          refine ⟨Nat.le_succ k, ?_, fun N hN => le_max_right _ _⟩
          have h1 : k + 1 - k = 1 := by omega
          rw [h1, List.range'_succ k 0 1]
          simp [hnc]
        · rw [if_neg hno] at h
          by_cases hdry : result = "dry_run"
          · rw [if_pos hdry] at h
            have hrc : ¬result = "completed" := by rw [hdry]; simp
            rw [if_neg hrc] at h
            obtain ⟨rfl, rfl, rfl⟩ :
                completed = c ∧ k + 1 = calls ∧ effs ++ newEffs = effs2 := by
              simpa [eq_comm] using h
            have hnc : isCompletedCall exec k = false := by
              rw [hcall, hdry]; rfl
            refine ⟨Nat.le_succ k, ?_, fun N hN => le_max_right _ _⟩
            have h1 : k + 1 - k = 1 := by omega
            rw [h1, List.range'_succ k 0 1]
            simp [hnc]
          · rw [if_neg hdry] at h
            obtain ⟨hk1, hcC, hbound⟩ := ih (k + 1) _ _ c calls effs2 h
            have hk : k ≤ calls := Nat.le_of_succ_le hk1
            refine ⟨hk, ?_, ?_⟩
            · have h1 : calls - k = (calls - (k + 1)) + 1 := by omega
              rw [h1, List.range'_succ k _ 1, List.countP_cons]
              have h2 : (if isCompletedCall exec k then 1 else 0)
                  = (if result = "completed" then (1 : Nat) else 0) := by
                rw [hcall]
                by_cases hrc : result = "completed" <;> simp [hrc]
              rw [h2]
              by_cases hrc : result = "completed" <;>
                simp only [hrc, if_true, if_false, reduceIte] at hcC ⊢ <;>
                push_cast at hcC ⊢ <;> omega
            · intro N hN
              have hlt : completed < N := by
                subst hN
                rw [capReached] at hcap
                simpa using hcap
              have := hbound N hN
              have hle : (if result = "completed" then completed + 1 else completed) ≤ N := by
                by_cases hrc : result = "completed" <;> simp [hrc] <;> omega
              have hmax2 : max N (if result = "completed" then completed + 1 else completed)
                  = N := max_eq_left hle
              rw [hmax2] at this
              exact le_trans this (le_max_left _ _)

/-! ## Instances for the key order -/

instance : IsTotal Node keyLE := ⟨fun a b => le_total (itemKey a) (itemKey b)⟩

instance : IsTrans Node keyLE := ⟨fun _ _ _ hab hbc => le_trans hab hbc⟩

/-! ## Concrete fixtures used by witnesses and counterexamples -/

/-- A one-task backlog: a single open leaf task `"t1"`. -/
def wTree : List Node := [Node.mk (some "t1") (some "open") (some "task") (some 1) []]

/-- A children-of query presenting `wTree` under the root id `"root"`. -/
def wQuery : String → List Node := fun p => if p = "root" then wTree else []

theorem wTree_subnodes :
    subnodesL wTree = [Node.mk (some "t1") (some "open") (some "task") (some 1) []] := by
  simp [wTree, subnodesL, Node.children]

theorem wQuery_presents : presents wQuery wTree := by
  intro n hn s hs hne
  rw [wTree_subnodes] at hn
  simp only [List.mem_singleton] at hn
  subst hn
  rw [Node.id] at hs
  have hs2 : s = "t1" := by simpa [eq_comm] using hs
  subst hs2
  rfl

theorem wTree_ids : allIdsTruthy wTree := by
  intro n hn
  rw [wTree_subnodes] at hn
  simp only [List.mem_singleton] at hn
  subst hn
  rfl

theorem wTree_depth : ldepth wTree = 1 := by
  simp [wTree, ldepth, Node.children]

/-- Environment where the agent produces no working-tree change. -/
def wEnvBlocked : Env :=
  ⟨wQuery, fun _ => ⟨"Fix Bug", "desc", "crit"⟩, "ts", "", "sha0\n", "sha1\n",
   fun _ => "closed"⟩

/-- Environment where the agent produces a change, the commit succeeds,
but the re-fetched status never becomes `closed`. -/
def wEnvDiverged : Env :=
  ⟨wQuery, fun _ => ⟨"Fix Bug", "desc", "crit"⟩, "ts", " M x.py\n", "sha0\n", "sha1\n",
   fun _ => "open"⟩

/-! ## Claims -/

/-- C1: for every input tree — and, in the id-based variant, for every
children-of query function — the backlog walker never returns the id of
an `epic` node or of a non-`open` node: any id it returns is the id of an
`open` leaf `task` node of the tree (resp. of an `open` `task` item of
some children query answered by the store). -/
theorem walker_returns_open_leaf_task (tree : List Node) (cOf : String → List Node)
    (fuel : Nat) (rootId : String) :
    (∀ i, select_first_open_leaf_task tree = some i → FoundOpenTask tree i)
    ∧ (∀ i, select_first_open_leaf_task_id rootId cOf fuel = some (some i) →
        FoundOpenTaskId cOf i) :=
  ⟨fun _ h => find_leaf_sound h, fun _ h => walkFuel_sound h⟩

theorem walker_returns_open_leaf_task_witness :
    select_first_open_leaf_task wTree = some "t1"
    ∧ FoundOpenTask wTree "t1"
    ∧ select_first_open_leaf_task_id "root" wQuery 2 = some (some "t1")
    ∧ FoundOpenTaskId wQuery "t1" := by
  have h := walker_returns_open_leaf_task wTree wQuery 2 "root"
  have hsel : select_first_open_leaf_task wTree = some "t1" := by
    simp [select_first_open_leaf_task, find_leaf, scanL, sorted_items, wTree, keyLE,
      itemKey, Node.priority, Node.status, Node.issue_type, Node.id, Node.children,
      truthy]
  exact ⟨hsel, h.1 "t1" hsel, by decide, h.2 "t1" (by decide)⟩

/-- Node with an explicit priority of 1000. -/
def explicitPriorityNode : Node :=
  Node.mk (some "a") (some "open") (some "task") (some 1000) []

/-- Node with no priority field. -/
def missingPriorityNode : Node :=
  Node.mk (some "b") (some "open") (some "task") none []

/-- C2 counterexample: the claim says a missing-priority child is ordered
after every child with an explicit priority, for all integer priorities.
But the code uses the sentinel 999, so the missing-priority child (key
999) sorts before a sibling with explicit priority 1000. -/
theorem missing_priority_sorts_before_1000 :
    explicitPriorityNode.priority = some 1000
    ∧ missingPriorityNode.priority = none
    ∧ sorted_items [explicitPriorityNode, missingPriorityNode]
        = [missingPriorityNode, explicitPriorityNode] :=
  ⟨rfl, rfl, rfl⟩

/-- C2 amended: children are considered in ascending order of the
effective key `priority or 999`: the scan order is a permutation of the
child list sorted so that effective keys are non-decreasing, a missing
priority is given the sentinel key 999 and an explicit priority is its
own key — so a missing-priority child sorts after children with priority
below 999 but not after children with priority 999 or above. -/
theorem children_sorted_by_sentinel_key (l : List Node) :
    (sorted_items l).Perm l
    ∧ (sorted_items l).Pairwise keyLE
    ∧ (∀ i s t c, itemKey (Node.mk i s t none c) = 999)
    ∧ (∀ i s t p c, itemKey (Node.mk i s t (some p) c) = p) :=
  ⟨sorted_items_perm l, List.sorted_insertionSort keyLE l,
   fun _ _ _ _ => rfl, fun _ _ _ _ _ => rfl⟩

/-- C9: in the materialized-tree walker, when the priority-ordered scan
reaches an `open` `task` whose id is missing or otherwise falsy, the scan
stops and yields that falsy id for the whole subtree — skipping any
remaining open lower-priority siblings — rather than skipping only the
id-less node.  (`hmin` places the id-less task first in priority order.) -/
theorem idless_open_task_aborts_scan (item : Node) (rest : List Node)
    (hopen : item.status = some "open") (htask : item.issue_type = some "task")
    (hid : truthy item.id = false)
    (hmin : ∀ r ∈ rest, keyLE item r) :
    select_first_open_leaf_task (item :: rest) = item.id
    ∧ truthy (select_first_open_leaf_task (item :: rest)) = false := by
  have hepic : ¬item.issue_type = some "epic" := by rw [htask]; simp
  have hs : sorted_items (item :: rest) = item :: sorted_items rest :=
    List.insertionSort_cons keyLE hmin
  have hsel : select_first_open_leaf_task (item :: rest)
      = scanL (item :: sorted_items rest) := by
    show find_leaf (item :: rest) = _
    rw [find_leaf, hs]
  rw [hsel, scanL_cons_task hopen hepic htask]
  exact ⟨rfl, hid⟩

theorem idless_open_task_aborts_scan_witness :
    select_first_open_leaf_task
        [Node.mk none (some "open") (some "task") none [],
         Node.mk (some "b") (some "open") (some "task") none []] = none
    ∧ truthy (select_first_open_leaf_task
        [Node.mk none (some "open") (some "task") none [],
         Node.mk (some "b") (some "open") (some "task") none []]) = false :=
  idless_open_task_aborts_scan
    (Node.mk none (some "open") (some "task") none [])
    [Node.mk (some "b") (some "open") (some "task") none []]
    rfl rfl rfl (by decide)

/-- C7 counterexample: the claim says the id-based variant terminates for
every children-of query function.  It does not: on a query function whose
answer always contains the open epic `"a"` (a cycle), the walk returns no
result at any recursion depth. -/
theorem id_walker_diverges_on_cycle : divergesAt cyclicQuery "a" :=
  fun fuel => cyclicQuery_walk_none fuel "a"

/-- C7 amended: the materialized-tree variant terminates on every finite
tree (it is a total function, witnessed by its definition); the id-based
variant terminates whenever the query function presents a finite forest
and the recursion budget exceeds the forest's depth — but it can diverge
on a cyclic query function. -/
theorem selection_terminates (tree : List Node) (cOf : String → List Node)
    (rootId : String) (fuel : Nat) (hroot : cOf rootId = tree)
    (hp : presents cOf tree) (hd : ldepth tree < fuel) :
    (∃ r, select_first_open_leaf_task tree = r)
    ∧ ∃ r, select_first_open_leaf_task_id rootId cOf fuel = some r :=
  ⟨⟨_, rfl⟩, walkFuel_total fuel tree cOf rootId hroot hp hd⟩

theorem selection_terminates_witness :
    (∃ r, select_first_open_leaf_task wTree = r)
    ∧ ∃ r, select_first_open_leaf_task_id "root" wQuery 2 = some r :=
  selection_terminates wTree wQuery "root" 2 rfl wQuery_presents
    (by rw [wTree_depth]; omega)

/-- A tree whose first (highest-priority) node is an open task without an
id, followed by an open task `"b"`. -/
def idlessTree : List Node :=
  [Node.mk none (some "open") (some "task") (some 1) [],
   Node.mk (some "b") (some "open") (some "task") (some 2) []]

/-- A children-of query presenting `idlessTree` under the root id `"root"`. -/
def idlessQuery : String → List Node := fun p => if p = "root" then idlessTree else []

theorem idlessTree_subnodes : subnodesL idlessTree = idlessTree := by
  simp [idlessTree, subnodesL, Node.children]

theorem idlessQuery_presents : presents idlessQuery idlessTree := by
  intro n hn s hs hne
  rw [idlessTree_subnodes] at hn
  rw [idlessTree] at hn
  simp only [List.mem_cons, List.mem_singleton, List.not_mem_nil, or_false] at hn
  rcases hn with hn | hn <;> subst hn
  · rw [Node.id] at hs
    cases hs
  · rw [Node.id] at hs
    have hs2 : s = "b" := by simpa [eq_comm] using hs
    subst hs2
    rfl

/-- C8 counterexample: the two selection variants do not implement the
same algorithm.  On a tree whose highest-priority child is an open task
without an id — presented faithfully by the children-of query — the
materialized-tree walker aborts and returns nothing, while the id-based
walker skips the id-less node and returns `"b"`. -/
theorem variants_disagree_on_idless_task :
    select_first_open_leaf_task idlessTree = none
    ∧ select_first_open_leaf_task_id "root" idlessQuery 2 = some (some "b")
    ∧ idlessQuery "root" = idlessTree
    ∧ presents idlessQuery idlessTree := by
  refine ⟨?_, by decide, rfl, idlessQuery_presents⟩
  simp [select_first_open_leaf_task, find_leaf, scanL, sorted_items, idlessTree, keyLE,
    itemKey, Node.priority, Node.status, Node.issue_type, Node.id, Node.children,
    truthy]

/-- C8 amended: the two variants agree on every tree in which each node
carries a truthy id: if the children-of query presents such a tree and the
recursion budget exceeds the tree's depth, the id-based walker returns
exactly the materialized-tree walker's result. -/
theorem variants_agree_on_trees_with_ids (tree : List Node)
    (cOf : String → List Node) (rootId : String) (fuel : Nat)
    (hroot : cOf rootId = tree) (hp : presents cOf tree)
    (ha : allIdsTruthy tree) (hd : ldepth tree < fuel) :
    select_first_open_leaf_task_id rootId cOf fuel
      = some (select_first_open_leaf_task tree) :=
  walkFuel_eq_find_leaf fuel tree cOf rootId hroot hp ha hd

theorem variants_agree_on_trees_with_ids_witness :
    select_first_open_leaf_task_id "root" wQuery 2
      = some (select_first_open_leaf_task wTree) :=
  variants_agree_on_trees_with_ids wTree wQuery "root" 2 rfl wQuery_presents
    wTree_ids (by rw [wTree_depth]; omega)


/-- The trace `run_once` produces on the no-pending-changes path. -/
def blockedTrace (env : Env) (leaf_id : String) : List Effect :=
  [Effect.storeUpdate leaf_id "in_progress", Effect.agentRun leaf_id, Effect.gitAdd,
   Effect.logAppend ⟨env.timestamp, leaf_id, (env.task leaf_id).title, "blocked",
     pyStrip env.head0⟩,
   Effect.storeUpdate leaf_id "blocked"]

/-- The trace `run_once` produces when a commit is made but the close
does not stick. -/
def divergedTrace (env : Env) (leaf_id : String) : List Effect :=
  [Effect.storeUpdate leaf_id "in_progress", Effect.agentRun leaf_id, Effect.gitAdd,
   Effect.gitCommit (if (env.task leaf_id).title ≠ ""
     then "feat: " ++ pyLower (env.task leaf_id).title
     else "feat: complete bead task"),
   Effect.logAppend ⟨env.timestamp, leaf_id, (env.task leaf_id).title, "completed",
     pyStrip env.headAfterCommit⟩,
   Effect.storeClose leaf_id,
   Effect.logAppend ⟨env.timestamp, leaf_id, (env.task leaf_id).title, "blocked",
     pyStrip env.headAfterCommit⟩,
   Effect.storeUpdate leaf_id "blocked"]

/-- C3: whenever the agent runs (a leaf was selected, not a dry run) but
the staged working tree shows no pending changes, `run_once` returns
`"blocked"` with the trace `blockedTrace`, which appends exactly one log
entry, whose status is `"blocked"` and whose `commit_sha` is the head
revision from before the execution (`env.head0` is the `rev-parse` answer
while nothing has been committed), creates no commit, and sets the task's
store status to `"blocked"`. -/
theorem executor_no_change_blocks (env : Env) (selFuel : Nat) (rootId : String)
    (leaf : Option String) (leaf_id : String)
    (hsel : walkFuel env.childrenOf selFuel rootId = some leaf)
    (hleaf : truthyOpt leaf = some leaf_id)
    (hnoch : pyStrip env.porcelain = "") :
    run_once env selFuel rootId false = some ("blocked", blockedTrace env leaf_id)
    ∧ logEntries (blockedTrace env leaf_id)
        = [⟨env.timestamp, leaf_id, (env.task leaf_id).title, "blocked",
            pyStrip env.head0⟩]
    ∧ commits (blockedTrace env leaf_id) = []
    ∧ Effect.storeUpdate leaf_id "blocked" ∈ blockedTrace env leaf_id :=
  ⟨run_once_no_changes hsel hleaf hnoch, rfl, rfl, by simp [blockedTrace]⟩

theorem executor_no_change_blocks_witness :
    walkFuel wEnvBlocked.childrenOf 2 "root" = some (some "t1")
    ∧ truthyOpt (some "t1") = some "t1"
    ∧ pyStrip wEnvBlocked.porcelain = ""
    ∧ run_once wEnvBlocked 2 "root" false
        = some ("blocked", blockedTrace wEnvBlocked "t1")
    ∧ logEntries (blockedTrace wEnvBlocked "t1")
        = [⟨"ts", "t1", "Fix Bug", "blocked", "sha0"⟩]
    ∧ commits (blockedTrace wEnvBlocked "t1") = []
    ∧ Effect.storeUpdate "t1" "blocked" ∈ blockedTrace wEnvBlocked "t1" := by
  have h := executor_no_change_blocks wEnvBlocked 2 "root" (some "t1") "t1"
    (by decide) (by decide) (by decide)
  exact ⟨by decide, by decide, by decide, h.1, by decide, by decide, by decide⟩

/-- C4: whenever the agent produces changes, the commit succeeds, but the
re-fetched task status is not `"closed"`, `run_once` returns `"blocked"`
with the trace `divergedTrace`, which appends exactly two log entries —
first one with status `"completed"`, then one with status `"blocked"` —
both carrying the same post-commit head revision; the task's store status
is set to `"blocked"`. -/
theorem executor_close_divergence_blocks (env : Env) (selFuel : Nat) (rootId : String)
    (leaf : Option String) (leaf_id : String)
    (hsel : walkFuel env.childrenOf selFuel rootId = some leaf)
    (hleaf : truthyOpt leaf = some leaf_id)
    (hch : ¬pyStrip env.porcelain = "")
    (hncl : ¬env.statusAfterClose leaf_id = "closed") :
    run_once env selFuel rootId false = some ("blocked", divergedTrace env leaf_id)
    ∧ logEntries (divergedTrace env leaf_id)
        = [⟨env.timestamp, leaf_id, (env.task leaf_id).title, "completed",
            pyStrip env.headAfterCommit⟩,
           ⟨env.timestamp, leaf_id, (env.task leaf_id).title, "blocked",
            pyStrip env.headAfterCommit⟩]
    ∧ Effect.storeUpdate leaf_id "blocked" ∈ divergedTrace env leaf_id :=
  ⟨run_once_close_diverged hsel hleaf hch hncl, rfl, by simp [divergedTrace]⟩

theorem executor_close_divergence_blocks_witness :
    walkFuel wEnvDiverged.childrenOf 2 "root" = some (some "t1")
    ∧ ¬pyStrip wEnvDiverged.porcelain = ""
    ∧ ¬wEnvDiverged.statusAfterClose "t1" = "closed"
    ∧ run_once wEnvDiverged 2 "root" false
        = some ("blocked", divergedTrace wEnvDiverged "t1")
    ∧ logEntries (divergedTrace wEnvDiverged "t1")
        = [⟨"ts", "t1", "Fix Bug", "completed", "sha1"⟩,
           ⟨"ts", "t1", "Fix Bug", "blocked", "sha1"⟩]
    ∧ Effect.storeUpdate "t1" "blocked" ∈ divergedTrace wEnvDiverged "t1" := by
  have h := executor_close_divergence_blocks wEnvDiverged 2 "root" (some "t1") "t1"
    (by decide) (by decide) (by decide) (by decide)
  exact ⟨by decide, by decide, by decide, h.1, by decide, by decide⟩

/-- An executor whose every call is blocked, with an empty trace. -/
def wExecBlocked : Nat → Option (String × List Effect) :=
  fun _ => some ("blocked", [])

/-- C5 counterexample: the claim quantifies over every `max_tasks` value
`N`.  With `N = -1` the loop breaks before the first executor call and
returns 0 completed tasks — and 0 exceeds −1. -/
theorem negative_cap_is_exceeded :
    run_loop (some (-1)) wExecBlocked 1 = some (0, 0, [])
    ∧ ¬((0 : Int) ≤ -1) :=
  ⟨rfl, by decide⟩

/-- C5 amended: for every `max_tasks` value `N` and every executor, a run
that returns never reports more than `max N 0` completed tasks (so never
more than `N` whenever `N ≥ 0`; a negative cap still yields the count 0,
which exceeds `N`), and the count equals the number of `"completed"`
outcomes among the executor calls made — only `"completed"` outcomes
increment it, and the loop stops calling the executor once the counter
has reached `N`. -/
theorem run_loop_respects_cap (N : Int) (exec : Nat → Option (String × List Effect))
    (fuel : Nat) (c : Int) (calls : Nat) (effs : List Effect)
    (h : run_loop (some N) exec fuel = some (c, calls, effs)) :
    c ≤ max N 0
    ∧ c = ((List.range calls).countP (isCompletedCall exec) : Int) := by
  obtain ⟨hk, hc, hb⟩ := run_loop_aux_count fuel 0 0 [] c calls effs h
  refine ⟨hb N rfl, ?_⟩
  rw [List.range_eq_range']
  simpa using hc

/-- An executor whose every call completes, with an empty trace. -/
def wExecCompleted : Nat → Option (String × List Effect) :=
  fun _ => some ("completed", [])

theorem run_loop_respects_cap_witness :
    run_loop (some 1) wExecCompleted 3 = some (1, 1, [])
    ∧ (1 : Int) ≤ max 1 0
    ∧ (1 : Int) = ((List.range 1).countP (isCompletedCall wExecCompleted) : Int) := by
  have h := run_loop_respects_cap 1 wExecCompleted 3 1 1 [] (by decide)
  exact ⟨by decide, h.1, h.2⟩

/-- C6: with `dry_run` set, any returning run of the loop with the real
executor performs zero mutating effects (no store mutations, no commits),
makes at most one executor call, and returns a completed count of 0. -/
theorem dry_run_performs_no_mutations (envs : Nat → Env) (selFuel : Nat)
    (rootId : String) (maxTasks : Option Int) (fuel : Nat) (c : Int) (calls : Nat)
    (effs : List Effect)
    (h : run_loop_runner envs selFuel rootId maxTasks true fuel
      = some (c, calls, effs)) :
    c = 0 ∧ effs = [] ∧ calls ≤ 1 := by
  cases fuel with
  | zero => rw [run_loop_runner, run_loop, run_loop_aux] at h; cases h
  | succ f =>
    rw [run_loop_runner, run_loop] at h
    by_cases hcap : capReached maxTasks 0 = true
    · rw [run_loop_aux_stop hcap] at h
      obtain ⟨rfl, rfl, rfl⟩ : (0 : Int) = c ∧ 0 = calls ∧ ([] : List Effect) = effs := by
        simpa [eq_comm] using h
      exact ⟨rfl, rfl, by omega⟩
    · rw [Bool.not_eq_true] at hcap
      rcases run_once_dry (envs 0) selFuel rootId with hdry | hdry | hdry
      · rw [run_loop_aux_abort hcap hdry] at h
        cases h
      · rw [run_loop_aux_step hcap hdry] at h
        simp only [reduceIte] at h
        obtain ⟨rfl, rfl, rfl⟩ : (0 : Int) = c ∧ 1 = calls ∧ ([] : List Effect) = effs := by
          simpa [eq_comm] using h
        exact ⟨rfl, rfl, by omega⟩
      · rw [run_loop_aux_step hcap hdry] at h
        simp only [reduceIte] at h
        obtain ⟨rfl, rfl, rfl⟩ : (0 : Int) = c ∧ 1 = calls ∧ ([] : List Effect) = effs := by
          simpa [eq_comm] using h
        exact ⟨rfl, rfl, by omega⟩

/-- A constant environment sequence for the loop witnesses. -/
def wEnvs : Nat → Env := fun _ => wEnvBlocked

theorem dry_run_performs_no_mutations_witness :
    run_loop_runner wEnvs 2 "root" none true 3 = some (0, 1, [])
    ∧ ((0 : Int) = 0 ∧ ([] : List Effect) = [] ∧ 1 ≤ 1) :=
  ⟨by decide, dry_run_performs_no_mutations wEnvs 2 "root" none 3 0 1 [] (by decide)⟩

/-- C10: for every `max_tasks` value `N ≤ 0` (including 0), the loop
returns a count of 0 without ever invoking the executor: zero calls and
zero effects. -/
theorem nonpositive_cap_skips_executor (envs : Nat → Env) (selFuel : Nat)
    (rootId : String) (dry_run : Bool) (N : Int) (fuel : Nat) (hN : N ≤ 0) :
    run_loop_runner envs selFuel rootId (some N) dry_run (fuel + 1)
      = some (0, 0, []) := by
  have hcap : capReached (some N) 0 = true := by
    rw [capReached]
    exact decide_eq_true hN
  rw [run_loop_runner, run_loop, run_loop_aux_stop hcap]

theorem nonpositive_cap_skips_executor_witness :
    (0 : Int) ≤ 0
    ∧ run_loop_runner wEnvs 2 "root" (some 0) false 1 = some (0, 0, []) :=
  ⟨by decide, nonpositive_cap_skips_executor wEnvs 2 "root" false 0 0 (by decide)⟩
